import Mathlib

/-!
Shallow embedding of the shogitest tournament manager's statistical
adjudication pipeline, translated from the Rust sources:

* `src/stats.rs`       — `Wdl`, `Penta` tallies
* `src/sprt.rs`        — `SprtParameters` and the SPRT termination gate
* `src/tc.rs`          — `TimeControl`, `EngineTime` clock stepping
* `src/engine.rs`      — `ReadResult` and the `read_with_timeout` loop
* `src/tournament/stats_wrapper.rs` — `StatsWrapper` board accumulation
* `src/main.rs`        — exit-code behaviour of `main`

Rust `u64` fields are modelled as `Nat` (no update in these files can
overflow a mathematical tally that fits in `u64` without first running for
astronomically many games; overflow panics are outside the model).
`std::time::Duration` is modelled as a `Nat` count of nanoseconds.
`f64` quantities that only feed comparisons are modelled as real numbers;
the iterative `mle`/`itp` floating-point solver of `sprt.rs` is not given a
numeric model, so the log-likelihood ratio enters as a function parameter.
-/

namespace Shogitest

/-- Modelled from the spec: `Color` lives in the `shogi` module, which is not
among the provided sources. Spec §3: variants `{First, Second}` (Sente,
Gote); negation swaps. -/
inductive Color where
  | Sente : Color
  | Gote : Color
deriving DecidableEq, Repr

/-- Modelled from the spec: negation of `Color` swaps the two variants
(`!c` in the Rust sources, spec §3 "Negation swaps"). -/
def Color.not : Color → Color
  | .Sente => .Gote
  | .Gote => .Sente

/-- Rust `Wdl` from `src/stats.rs`: win/draw/loss tally. -/
structure Wdl where
  w : Nat
  d : Nat
  l : Nat
deriving DecidableEq, Repr

/-- Rust `impl Add for Wdl` (`src/stats.rs`). -/
def Wdl.add (x y : Wdl) : Wdl :=
  { w := x.w + y.w, d := x.d + y.d, l := x.l + y.l }

/-- Rust `Wdl::default()`: all fields zero. -/
def Wdl.zero : Wdl := { w := 0, d := 0, l := 0 }

/-- Rust `Wdl::ONE_WIN` (`src/stats.rs`). -/
def Wdl.ONE_WIN : Wdl := { w := 1, d := 0, l := 0 }

/-- Rust `Wdl::ONE_DRAW` (`src/stats.rs`). -/
def Wdl.ONE_DRAW : Wdl := { w := 0, d := 1, l := 0 }

/-- Rust `Wdl::ONE_LOSS` (`src/stats.rs`). -/
def Wdl.ONE_LOSS : Wdl := { w := 0, d := 0, l := 1 }

/-- Rust `Wdl::game_count` (`src/stats.rs`). -/
def Wdl.game_count (x : Wdl) : Nat := x.w + x.d + x.l

/-- Rust `Penta` from `src/stats.rs`: pentanomial tally over sibling game pairs. -/
structure Penta where
  ll : Nat
  dl : Nat
  dd : Nat
  wl : Nat
  wd : Nat
  ww : Nat
deriving DecidableEq, Repr

/-- Rust `impl Add for Penta` (`src/stats.rs`). -/
def Penta.add (x y : Penta) : Penta :=
  { ll := x.ll + y.ll, dl := x.dl + y.dl, dd := x.dd + y.dd
  , wl := x.wl + y.wl, wd := x.wd + y.wd, ww := x.ww + y.ww }

/-- Rust `Penta::default()`: all fields zero. -/
def Penta.zero : Penta := { ll := 0, dl := 0, dd := 0, wl := 0, wd := 0, ww := 0 }

/-- Rust `Penta::ONE_WW` (`src/stats.rs`). -/
def Penta.ONE_WW : Penta := { Penta.zero with ww := 1 }

/-- Rust `Penta::ONE_WD` (`src/stats.rs`). -/
def Penta.ONE_WD : Penta := { Penta.zero with wd := 1 }

/-- Rust `Penta::ONE_WL` (`src/stats.rs`). -/
def Penta.ONE_WL : Penta := { Penta.zero with wl := 1 }

/-- Rust `Penta::ONE_DD` (`src/stats.rs`). -/
def Penta.ONE_DD : Penta := { Penta.zero with dd := 1 }

/-- Rust `Penta::ONE_DL` (`src/stats.rs`). -/
def Penta.ONE_DL : Penta := { Penta.zero with dl := 1 }

/-- Rust `Penta::ONE_LL` (`src/stats.rs`). -/
def Penta.ONE_LL : Penta := { Penta.zero with ll := 1 }

/-- Rust `Penta::flip` (`src/stats.rs` lines 177-186): perspective reversal.
`ll := ww, dl := wd, dd := dd, wl := wl, wd := dl, ww := ll`. -/
def Penta.flip (x : Penta) : Penta :=
  { ll := x.ww, dl := x.wd, dd := x.dd, wl := x.wl, wd := x.dl, ww := x.ll }

/-- Rust `Penta::game_count` (`src/stats.rs`): sum of all six buckets. -/
def Penta.game_count (x : Penta) : Nat :=
  x.ll + x.dl + x.dd + x.wl + x.wd + x.ww

/-- Modelled from the spec: `Penta::pair_count` is called from `src/sprt.rs`
and `src/tournament/stats_wrapper.rs` but its definition is not among the
provided sources (it is not in the given `src/stats.rs`). Spec §3:
"`Penta` — `{ll,dl,dd,wl,wd,ww}`; additive; `pair_count = sum`". -/
def Penta.pair_count (x : Penta) : Nat :=
  x.ll + x.dl + x.dd + x.wl + x.wd + x.ww

/-- Rust `TimeControl` from `src/tc.rs`; durations in nanoseconds. -/
structure TimeControl where
  base : Nat
  increment : Nat
deriving DecidableEq, Repr

/-- Rust `StepResult` from `src/tc.rs`. -/
inductive StepResult where
  | Ok : StepResult
  | TimeElapsed : StepResult
deriving DecidableEq, Repr

/-- Rust `EngineTime` from `src/tc.rs`. -/
structure EngineTime where
  tc : TimeControl
  remaining : Nat
deriving DecidableEq, Repr

/-- Rust `EngineTime::new` (`src/tc.rs`): `remaining = tc.base + tc.increment`. -/
def EngineTime.new (tc : TimeControl) : EngineTime :=
  { tc := tc, remaining := tc.base + tc.increment }

/-- Rust `EngineTime::step` (`src/tc.rs` lines 82-90). Rust mutates `self` and
returns a `StepResult`; here the updated clock is returned alongside. -/
def EngineTime.step (et : EngineTime) (duration : Nat) : StepResult × EngineTime :=
  if et.remaining < duration then
    (.TimeElapsed, { et with remaining := 0 })
  else
    (.Ok, { et with remaining := et.remaining - duration + et.tc.increment })

/-- Rust `SprtParameters` from `src/sprt.rs` (all fields are `f64` in Rust,
modelled as reals). -/
structure SprtParameters where
  lower_bound : ℝ
  upper_bound : ℝ
  nelo0 : ℝ
  nelo1 : ℝ
  t0 : ℝ
  t1 : ℝ

/-- Rust `SprtParameters::new` (`src/sprt.rs` lines 24-38). -/
noncomputable def SprtParameters.new (nelo0 nelo1 alpha beta : ℝ) : SprtParameters :=
  let c_et : ℝ := 800 / Real.log 10
  { lower_bound := Real.log (beta / (1 - alpha))
  , upper_bound := Real.log ((1 - beta) / alpha)
  , nelo0 := nelo0
  , nelo1 := nelo1
  , t0 := nelo0 / c_et
  , t1 := nelo1 / c_et }

/-- Rust `SprtParameters::llr_bounds` (`src/sprt.rs` lines 44-46). -/
def SprtParameters.llr_bounds (p : SprtParameters) : ℝ × ℝ :=
  (p.lower_bound, p.upper_bound)

/-- Rust `SprtParameters::nelo_bounds` (`src/sprt.rs` lines 49-51). -/
def SprtParameters.nelo_bounds (p : SprtParameters) : ℝ × ℝ :=
  (p.nelo0, p.nelo1)

/-- Rust `SprtParameters::should_terminate` (`src/sprt.rs` lines 66-73).
The value `SprtParameters::llr` is computed by the iterative `f64`
MLE/ITP solver of `src/sprt.rs`, which has no exact model; since the
claims relate `should_terminate` only to the *value* of the
log-likelihood ratio, `llr` is taken as a function parameter. -/
def SprtParameters.should_terminate (p : SprtParameters) (llr : Penta → ℝ)
    (penta : Penta) : Prop :=
  if penta.pair_count = 0 then False
  else
    llr penta ≤ (p.llr_bounds).1 ∨ llr penta ≥ (p.llr_bounds).2

/-- Point update of a total map; models `HashMap::insert` on a map read
through `get(..).cloned().unwrap_or_default()` (absent keys read as the
default value). -/
def upd {α β : Type} [DecidableEq α] (f : α → β) (k : α) (v : β) : α → β :=
  fun k' => if k' = k then v else f k'

/-- State of `StatsWrapper` (`src/tournament/stats_wrapper.rs` lines 11-23),
restricted to the fields the statistics logic reads or writes.  The boards
are total maps with absent entries read as zero, mirroring
`unwrap_or_default`.  `engine_names`/`engine_options`/`book_name` only feed
printing and are dropped; `inner` is the wrapped tournament, which the
statistics never read.  The `sprt : Option<SprtParameters>` field is
represented at each transition by an `Option (Penta → Bool)` parameter
standing for `sprt.should_terminate`, whose `f64` value has no exact
model (see `SprtParameters.should_terminate`). -/
structure StatsState where
  numEngines : Nat
  wdl_board : Nat × Nat → Wdl
  penta_board : Nat × Nat → Penta
  pending : Nat → Option ((Nat × Nat) × Option Color)
  match_ticket_count : Nat
  match_complete_count : Nat
  should_terminate : Bool

/-- Rust `StatsWrapper::new` (`src/tournament/stats_wrapper.rs` lines 26-50):
empty boards, no pending pairing, zero counters, termination flag off. -/
def StatsState.new (numEngines : Nat) : StatsState :=
  { numEngines := numEngines
  , wdl_board := fun _ => Wdl.zero
  , penta_board := fun _ => Penta.zero
  , pending := fun _ => none
  , match_ticket_count := 0
  , match_complete_count := 0
  , should_terminate := false }

/-- The `Wdl` increment chosen in `StatsWrapper::add_wdl`
(`src/tournament/stats_wrapper.rs` lines 57-61). -/
def wdlOf (result : Option Color) : Wdl :=
  match result with
  | some .Sente => Wdl.ONE_WIN
  | none => Wdl.ONE_DRAW
  | some .Gote => Wdl.ONE_LOSS

/-- Rust `StatsWrapper::add_wdl` (`src/tournament/stats_wrapper.rs` lines 56-65). -/
def StatsState.add_wdl (s : StatsState) (key : Nat × Nat) (result : Option Color) :
    StatsState :=
  { s with wdl_board := upd s.wdl_board key ((s.wdl_board key).add (wdlOf result)) }

/-- The pentanomial bucket table of `StatsWrapper::add_penta_half`
(`src/tournament/stats_wrapper.rs` lines 71-81): the match is on
`(result1, result2.map(|c| !c))`. -/
def pentaOf (result1 result2 : Option Color) : Penta :=
  match result1, result2.map Color.not with
  | some .Sente, some .Sente => Penta.ONE_WW
  | some .Sente, none => Penta.ONE_WD
  | none, some .Sente => Penta.ONE_WD
  | none, none => Penta.ONE_DD
  | some .Gote, some .Sente => Penta.ONE_WL
  | some .Sente, some .Gote => Penta.ONE_WL
  | some .Gote, none => Penta.ONE_DL
  | none, some .Gote => Penta.ONE_DL
  | some .Gote, some .Gote => Penta.ONE_LL

/-- The `insert` closure of `StatsWrapper::add_penta_half`
(`src/tournament/stats_wrapper.rs` lines 83-86): add `penta` onto the
board entry at `key`. -/
def pentaInsert (board : Nat × Nat → Penta) (key : Nat × Nat) (penta : Penta) :
    Nat × Nat → Penta :=
  upd board key ((board key).add penta)

/-- Rust `StatsWrapper::add_penta_half` (`src/tournament/stats_wrapper.rs` lines
66-93).  The stored entry `pr` destructures in Rust as
`((b2, a2), result2)`, so `b2 = pr.1.1`, `a2 = pr.1.2`, `result2 = pr.2`;
`none` models the `assert!(a == a2 && b == b2)` panic. -/
def StatsState.add_penta_half (s : StatsState) (match_id : Nat) (a b : Nat)
    (result1 : Option Color) : Option StatsState :=
  let sibling := match_id ^^^ 1
  match s.pending sibling with
  | some pr =>
    if a = pr.1.2 ∧ b = pr.1.1 then
      let penta := pentaOf result1 pr.2
      some { s with
        pending := upd s.pending sibling none
        , penta_board :=
            pentaInsert (pentaInsert s.penta_board (a, b) penta) (b, a) penta.flip }
    else none
  | none =>
    some { s with pending := upd s.pending match_id (some ((a, b), result1)) }

/-- Rust `StatsWrapper::add_result` (`src/tournament/stats_wrapper.rs` lines
51-55). -/
def StatsState.add_result (s : StatsState) (match_id : Nat) (a b : Nat)
    (result : Option Color) : Option StatsState :=
  (((s.add_wdl (a, b) result).add_wdl (b, a) (result.map Color.not))).add_penta_half
    match_id a b result

/-- Rust `StatsWrapper::all_penta_for` (`src/tournament/stats_wrapper.rs` lines
100-105). -/
def StatsState.all_penta_for (s : StatsState) (engine_id : Nat) : Penta :=
  ((List.range s.numEngines).map (fun i => s.penta_board (engine_id, i))).foldl
    Penta.add Penta.zero

/-- The private `StatsWrapper::match_complete` (`src/tournament/stats_wrapper.rs`
lines 217-225): bump the counter; when SPRT is configured and the flag is
not yet set, recompute it from engine 1's aggregated pentanomial.
`oracle` stands for the configured `sprt.should_terminate`. -/
def StatsState.match_complete_count_update (oracle : Option (Penta → Bool))
    (s : StatsState) : StatsState :=
  let s := { s with match_complete_count := s.match_complete_count + 1 }
  match oracle with
  | some sprtGate =>
    if s.should_terminate then s
    else { s with should_terminate := sprtGate (s.all_penta_for 1) }
  | none => s

/-- One posted `MatchResult` as consumed by `StatsWrapper::match_complete`
(`src/tournament/stats_wrapper.rs` lines 243-253): ticket id, the ticket's
engine pair `(engines[0], engines[1])`, and `outcome.winner()`. -/
structure ResultPost where
  id : Nat
  engines : Nat × Nat
  winner : Option Color
deriving DecidableEq, Repr

/-- The `Tournament::match_complete` implementation of `StatsWrapper`
(`src/tournament/stats_wrapper.rs` lines 243-253), minus the delegation to
the wrapped tournament, which the statistics state never reads. -/
def StatsState.match_complete (oracle : Option (Penta → Bool)) (s : StatsState)
    (r : ResultPost) : Option StatsState :=
  (s.add_result r.id r.engines.1 r.engines.2 r.winner).map
    (StatsState.match_complete_count_update oracle)

/-- The `Tournament::next` implementation of `StatsWrapper`
(`src/tournament/stats_wrapper.rs` lines 232-239 together with the private
`next`/`next_should_terminate` on lines 211-216): once the termination
flag is set, `None` is returned without consulting the inner tournament;
otherwise the ticket counter is bumped and the inner answer (here a
parameter) is passed through. -/
def StatsState.next {α : Type} (s : StatsState) (innerNext : Option α) :
    Option α × StatsState :=
  if s.should_terminate then (none, s)
  else (innerNext, { s with match_ticket_count := s.match_ticket_count + 1 })

/-- A sequence of `match_complete` posts, propagating the panic model. -/
def StatsState.foldComplete (oracle : Option (Penta → Bool)) (s : StatsState)
    (rs : List ResultPost) : Option StatsState :=
  rs.foldlM (fun st r => StatsState.match_complete oracle st r) s

/-- The part of `StatsState` that `add_penta_half` reads and writes: the
pentanomial board and the pending-pairing map. -/
structure PentaCore where
  board : Nat × Nat → Penta
  pending : Nat → Option ((Nat × Nat) × Option Color)

/-- Projection of the wrapper state onto its pentanomial core. -/
def StatsState.core (s : StatsState) : PentaCore :=
  { board := s.penta_board, pending := s.pending }

/-- Rust `StatsWrapper::add_penta_half` acting on the pentanomial core alone
(same destructuring convention as `StatsState.add_penta_half`). -/
def PentaCore.step (c : PentaCore) (r : ResultPost) : Option PentaCore :=
  let sibling := r.id ^^^ 1
  match c.pending sibling with
  | some pr =>
    if r.engines.1 = pr.1.2 ∧ r.engines.2 = pr.1.1 then
      let penta := pentaOf r.winner pr.2
      some { board :=
              pentaInsert (pentaInsert c.board (r.engines.1, r.engines.2) penta)
                (r.engines.2, r.engines.1) penta.flip
           , pending := upd c.pending sibling none }
    else none
  | none =>
    some { c with pending := upd c.pending r.id (some (r.engines, r.winner)) }

/-- A sequence of core steps, propagating the panic model. -/
def PentaCore.fold (c : PentaCore) (rs : List ResultPost) : Option PentaCore :=
  rs.foldlM PentaCore.step c

/-- Rust `sibling` as computed in `add_penta_half`: `match_id ^ 1`. -/
def sib (m : Nat) : Nat := m ^^^ 1

/-- Swap of an ordered engine pair. -/
def swapKey (k : Nat × Nat) : Nat × Nat := (k.2, k.1)

/-- A list of result posts is a coherent continuation from core state `c`:
ticket ids are pairwise distinct, no listed id is still pending, and every
listed result either has its sibling later in the list (with the swapped
engine pair) or finds it already pending (stored under the swapped engine
pair).  Well-formed tournament streams — sibling tickets `2k`/`2k+1` over
the same engines in swapped orientation, each completed once — satisfy
this from the initial (empty) state. -/
def Coherent (c : PentaCore) (rs : List ResultPost) : Prop :=
  (rs.map ResultPost.id).Nodup ∧
  ∀ r ∈ rs,
    c.pending r.id = none ∧
    ((∃ r' ∈ rs, r'.id = sib r.id ∧ r'.engines = swapKey r.engines) ∨
     ((¬ ∃ r' ∈ rs, r'.id = sib r.id) ∧
       (c.pending (sib r.id)).map Prod.fst = some (swapKey r.engines)))

/-- Rust `ReadState` from `src/engine.rs` lines 29-33. -/
inductive ReadState where
  | Continue : ReadState
  | Stop : ReadState
deriving DecidableEq, Repr

/-- Rust `ReadResult` from `src/engine.rs` lines 22-27. -/
inductive ReadResult where
  | Ok : ReadResult
  | Timeout : ReadResult
  | Disconnected : ReadResult
deriving DecidableEq, Repr

/-- One iteration's interaction of `Engine::read_with_timeout`
(`src/engine.rs` lines 291-350) with the operating system: the `poll` call
either expires (`timeout`, return value 0), fails fatally (`ioerr`, also
covering a failing `fill_buf`), or reports the descriptor readable, after
which `fill_buf` yields a byte chunk — empty exactly when the child's
stdout is at EOF or its pipe has been torn down, since a closed pipe still
polls readable.  `EINTR`/`EAGAIN` iterations are no-ops and are omitted. -/
inductive PollEvt where
  | timeout : PollEvt
  | ioerr : PollEvt
  | chunk : List Char → PollEvt
deriving DecidableEq, Repr

/-- Result of running the reader over a finite interaction trace:
a `ReadResult` return, an `Err` return, or no return within the trace
(the loop keeps polling). -/
inductive ReadOutcome where
  | ret : ReadResult → ReadOutcome
  | err : ReadOutcome
  | blocked : ReadOutcome
deriving DecidableEq, Repr

/-- The inner `while let Some(i) = memchr(..)` loop of
`Engine::read_with_timeout` (`src/engine.rs` lines 330-348): deliver every
complete newline-terminated line (newline included, mirroring
`drain(0..i+1)`) to the callback; stop early when it answers `Stop`.
Returns whether `Stop` was hit together with the undrained buffer. -/
def processLines (f : List Char → ReadState) (buf : List Char) : Bool × List Char :=
  let pre := buf.takeWhile (fun ch => ch ≠ Char.ofNat 10)
  if h : pre.length < buf.length then
    match f (buf.take (pre.length + 1)) with
    | .Stop => (true, buf.drop (pre.length + 1))
    | .Continue => processLines f (buf.drop (pre.length + 1))
  else (false, buf)
termination_by buf.length
decreasing_by
  simp only [List.length_drop]
  omega

/-- Rust `Engine::read_with_timeout` (`src/engine.rs` lines 291-350) run over a
finite trace of poll interactions: `poll` timeout returns
`Ok(ReadResult::Timeout)`; a fatal I/O error returns `Err`; a readable
descriptor appends the chunk read by `fill_buf` to the accumulated buffer
and scans it for lines, returning `Ok(ReadResult::Ok)` when the callback
answers `Stop`; otherwise the loop continues with the next poll. -/
def runRead (f : List Char → ReadState) : List Char → List PollEvt → ReadOutcome
  | _, [] => .blocked
  | _, .timeout :: _ => .ret .Timeout
  | _, .ioerr :: _ => .err
  | buf, .chunk d :: evs =>
    match processLines f (buf ++ d) with
    | (true, _) => .ret .Ok
    | (false, rest) => runRead f rest evs

/-- Exit-code model of `main` (`src/main.rs` lines 20-87) along its control
flow: `cli::parse()` returning `None`, fewer than two engines, and a
missing `--book` option all print to stderr and `return Ok(())` (exit 0);
a book file that fails to load makes `OpeningBook::new(..).unwrap()` panic
(exit 101); `PgnOutWrapper::new(..)?` propagates an I/O error out of
`main` (exit 1); otherwise the tournament runs and `main` ends in
`Ok(())` (exit 0). -/
def mainExitCode (parseOk : Bool) (numEngines : Nat) (bookSupplied : Bool)
    (bookLoads : Bool) (pgnRequested : Bool) (pgnCreateOk : Bool) : Nat :=
  if parseOk = false then 0
  else if numEngines < 2 then 0
  else if bookSupplied = false then 0
  else if bookLoads = false then 101
  else if pgnRequested = true ∧ pgnCreateOk = false then 1
  else 0

/-- Value model of the `f64` quantities reachable from
`Penta::dd_wl_ratio`: a finite value (exact rational), the two infinities,
or NaN.  Division follows IEEE 754 (signed zeros are outside the model:
the only zeros reachable here are `u64 as f64` conversions, which are
positive zeros). -/
inductive F64 where
  | finite : ℚ → F64
  | posInf : F64
  | negInf : F64
  | nan : F64
deriving DecidableEq, Repr

/-- IEEE-754 binary64 division on the value level: finite/0 gives a signed
infinity or NaN, infinities and NaN propagate, finite/finite is exact in
this model (rounding never turns a finite quotient non-finite here, nor
conversely). -/
def F64.div : F64 → F64 → F64
  | .nan, _ => .nan
  | _, .nan => .nan
  | .finite a, .finite b =>
    if b = 0 then
      if 0 < a then .posInf
      else if a < 0 then .negInf
      else .nan
    else .finite (a / b)
  | .finite _, .posInf => .finite 0
  | .finite _, .negInf => .finite 0
  | .posInf, .finite b => if 0 ≤ b then .posInf else .negInf
  | .negInf, .finite b => if 0 ≤ b then .negInf else .posInf
  | .posInf, .posInf => .nan
  | .posInf, .negInf => .nan
  | .negInf, .posInf => .nan
  | .negInf, .negInf => .nan

/-- Finiteness test on the `f64` value model. -/
def F64.isFinite : F64 → Bool
  | .finite _ => true
  | _ => false

/-- Rust `Penta::dd_wl_ratio` (`src/stats.rs` lines 233-235):
`self.dd as f64 / self.wl as f64`, an unguarded division.  The `u64 as
f64` conversion rounds for values at or above `2^53` but preserves
zeroness and sign, which is all the division-by-zero behaviour depends
on; the conversion is modelled as exact.  (The Lean name avoids the
Rust method name for lexical reasons.) -/
def Penta.dd_wl_quot (p : Penta) : F64 :=
  F64.div (.finite (p.dd : ℚ)) (.finite (p.wl : ℚ))

/-- The DD/WL ratio printed by `StatsWrapper::print_head_to_head`
(`src/tournament/stats_wrapper.rs` lines 154-157): computed from
`all_penta_for(1)` and interpolated into the report with no guard. -/
def StatsState.reported_dd_wl (s : StatsState) : F64 :=
  Penta.dd_wl_quot (s.all_penta_for 1)

/-- The mirror invariant on the WDL board (spec invariant 2): the entry for
`(a, b)` is the entry for `(b, a)` with wins and losses exchanged. -/
def WdlMirror (W : Nat × Nat → Wdl) : Prop :=
  ∀ x y, (W (x, y)).w = (W (y, x)).l ∧ (W (x, y)).l = (W (y, x)).w ∧
    (W (x, y)).d = (W (y, x)).d

end Shogitest

namespace Shogitest

theorem upd_apply_same {α β : Type} [DecidableEq α] (f : α → β) (k : α) (v : β) :
    upd f k v k = v := by
  simp [upd]

theorem upd_apply_ne {α β : Type} [DecidableEq α] (f : α → β) (k : α) (v : β)
    {k' : α} (h : k' ≠ k) : upd f k v k' = f k' := by
  simp [upd, h]

theorem upd_upd_same {α β : Type} [DecidableEq α] (f : α → β) (k : α) (v w : β) :
    upd (upd f k v) k w = upd f k w := by
  funext t
  by_cases h : t = k <;> simp [upd, h]

theorem upd_comm {α β : Type} [DecidableEq α] (f : α → β) {k k' : α}
    (h : k ≠ k') (v w : β) :
    upd (upd f k v) k' w = upd (upd f k' w) k v := by
  funext t
  by_cases h1 : t = k
  · subst h1
    simp [upd, h]
  · by_cases h2 : t = k' <;> simp [upd, h1, h2, Ne.symm h]

theorem upd_eq_self {α β : Type} [DecidableEq α] (f : α → β) {k : α} {v : β}
    (h : f k = v) : upd f k v = f := by
  funext t
  by_cases h1 : t = k <;> simp [upd, h1, h]

theorem sib_sib (m : Nat) : sib (sib m) = m := by
  simp [sib, Nat.xor_assoc]

theorem sib_ne (m : Nat) : sib m ≠ m := by
  intro h
  simp only [sib] at h
  have h1 : m ^^^ (m ^^^ 1) = m ^^^ m := by rw [h]
  rw [← Nat.xor_assoc, Nat.xor_self, Nat.zero_xor] at h1
  simp at h1

theorem sib_eq_comm {m n : Nat} (h : n = sib m) : m = sib n := by
  rw [h, sib_sib]

theorem swapKey_swapKey (k : Nat × Nat) : swapKey (swapKey k) = k := rfl

theorem Penta.flip_flip (p : Penta) : p.flip.flip = p := by
  cases p
  simp [Penta.flip]

theorem Penta.add_right_swap (u p q : Penta) : (u.add p).add q = (u.add q).add p := by
  cases u
  cases p
  cases q
  simp only [Penta.add, Penta.mk.injEq]
  omega

theorem pentaOf_flip (r1 r2 : Option Color) :
    pentaOf r1 r2 = (pentaOf r2 r1).flip := by
  cases r1 <;> cases r2 <;>
    first
    | rfl
    | (rename_i c; cases c <;> rfl)
    | (rename_i c1 c2; cases c1 <;> cases c2 <;> rfl)

theorem pentaInsert_comm (B : Nat × Nat → Penta) (k k' : Nat × Nat) (p p' : Penta) :
    pentaInsert (pentaInsert B k p) k' p' = pentaInsert (pentaInsert B k' p') k p := by
  by_cases hkk : k = k'
  · subst hkk
    funext t
    by_cases ht : t = k <;>
      simp [pentaInsert, upd, ht, Penta.add_right_swap]
  · funext t
    by_cases h1 : t = k
    · subst h1
      simp [pentaInsert, upd, hkk, Ne.symm hkk]
    · by_cases h2 : t = k' <;> simp [pentaInsert, upd, h1, h2, hkk, Ne.symm hkk]

theorem step_store (c : PentaCore) (x : ResultPost)
    (h : c.pending (x.id ^^^ 1) = none) :
    c.step x = some { c with pending := upd c.pending x.id (some (x.engines, x.winner)) } := by
  simp [PentaCore.step, h]

theorem step_consume (c : PentaCore) (x : ResultPost)
    (pr : (Nat × Nat) × Option Color) (h : c.pending (x.id ^^^ 1) = some pr)
    (hc : x.engines.1 = pr.1.2 ∧ x.engines.2 = pr.1.1) :
    c.step x = some
      { board := pentaInsert
          (pentaInsert c.board (x.engines.1, x.engines.2) (pentaOf x.winner pr.2))
          (x.engines.2, x.engines.1) (pentaOf x.winner pr.2).flip
      , pending := upd c.pending (x.id ^^^ 1) none } := by
  simp [PentaCore.step, h, hc]

theorem step_assert_fail (c : PentaCore) (x : ResultPost)
    (pr : (Nat × Nat) × Option Color) (h : c.pending (x.id ^^^ 1) = some pr)
    (hc : ¬(x.engines.1 = pr.1.2 ∧ x.engines.2 = pr.1.1)) :
    c.step x = none := by
  simp [PentaCore.step, h, hc]

theorem pentaInsert4_comm (B : Nat × Nat → Penta) (k1 k2 k3 k4 : Nat × Nat)
    (p1 p2 p3 p4 : Penta) :
    pentaInsert (pentaInsert (pentaInsert (pentaInsert B k1 p1) k2 p2) k3 p3) k4 p4
      = pentaInsert (pentaInsert (pentaInsert (pentaInsert B k3 p3) k4 p4) k1 p1) k2 p2 := by
  rw [pentaInsert_comm (pentaInsert B k1 p1) k2 k3 p2 p3]
  rw [pentaInsert_comm B k1 k3 p1 p3]
  rw [pentaInsert_comm (pentaInsert (pentaInsert B k3 p3) k1 p1) k2 k4 p2 p4]
  rw [pentaInsert_comm (pentaInsert B k3 p3) k1 k4 p1 p4]

theorem xor_one_ne_of_ne {a b : Nat} (h : a ≠ b) : a ^^^ 1 ≠ b ^^^ 1 := by
  intro h1
  apply h
  have h2 : (a ^^^ 1) ^^^ 1 = (b ^^^ 1) ^^^ 1 := by rw [h1]
  rwa [Nat.xor_assoc, Nat.xor_assoc, Nat.xor_self, Nat.xor_zero, Nat.xor_zero] at h2

/-- Posting two result tickets with distinct ids, neither of which is still
pending, updates the pentanomial core the same way in either order. -/
theorem step_comm (c : PentaCore) (x y : ResultPost) (hxy : x.id ≠ y.id)
    (hpx : c.pending x.id = none) (hpy : c.pending y.id = none) :
    (c.step y).bind (fun c1 => c1.step x) = (c.step x).bind (fun c1 => c1.step y) := by
  by_cases hs : y.id = x.id ^^^ 1
  · -- sibling tickets: one order stores y and consumes it at x, the other
    -- stores x and consumes it at y; the two composite updates agree.
    have hs' : x.id = y.id ^^^ 1 := by
      rw [hs, Nat.xor_assoc, Nat.xor_self, Nat.xor_zero]
    have hy0 : c.pending (y.id ^^^ 1) = none := by rw [← hs']; exact hpx
    have hx0 : c.pending (x.id ^^^ 1) = none := by rw [← hs]; exact hpy
    rw [step_store c y hy0, step_store c x hx0]
    simp only [Option.some_bind]
    have e1 : (upd c.pending y.id (some (y.engines, y.winner))) (x.id ^^^ 1)
        = some (y.engines, y.winner) := by
      rw [← hs]; exact upd_apply_same ..
    have e2 : (upd c.pending x.id (some (x.engines, x.winner))) (y.id ^^^ 1)
        = some (x.engines, x.winner) := by
      rw [← hs']; exact upd_apply_same ..
    by_cases hcond : x.engines.1 = y.engines.2 ∧ x.engines.2 = y.engines.1
    · rw [step_consume _ x (y.engines, y.winner) e1 hcond,
        step_consume _ y (x.engines, x.winner) e2 ⟨hcond.2.symm, hcond.1.symm⟩]
      simp only [Option.some.injEq, PentaCore.mk.injEq]
      constructor
      · rw [show pentaOf y.winner x.winner = (pentaOf x.winner y.winner).flip from
          pentaOf_flip y.winner x.winner]
        rw [Penta.flip_flip, hcond.1, hcond.2]
        exact (pentaInsert_comm c.board (y.engines.2, y.engines.1)
          (y.engines.1, y.engines.2) (pentaOf x.winner y.winner)
          (pentaOf x.winner y.winner).flip)
      · rw [← hs, ← hs', upd_upd_same, upd_upd_same, upd_eq_self c.pending hpy,
          upd_eq_self c.pending hpx]
    · rw [step_assert_fail _ x (y.engines, y.winner) e1 hcond,
        step_assert_fail _ y (x.engines, x.winner) e2
          (fun h => hcond ⟨h.2.symm, h.1.symm⟩)]
  · -- unrelated tickets: all four pending keys are distinct, so the two
    -- updates touch disjoint pending entries and additive board entries.
    have hs2 : x.id ≠ y.id ^^^ 1 := by
      intro h
      apply hs
      rw [h, Nat.xor_assoc, Nat.xor_self, Nat.xor_zero]
    have k1 : x.id ^^^ 1 ≠ y.id := fun h => hs h.symm
    have k2 : y.id ^^^ 1 ≠ x.id := fun h => hs2 h.symm
    have k3 : x.id ^^^ 1 ≠ y.id ^^^ 1 := xor_one_ne_of_ne hxy
    cases hvy : c.pending (y.id ^^^ 1) with
    | none =>
      rw [step_store c y hvy]
      simp only [Option.some_bind]
      cases hvx : c.pending (x.id ^^^ 1) with
      | none =>
        rw [step_store c x hvx]
        simp only [Option.some_bind]
        have hvx' : (upd c.pending y.id (some (y.engines, y.winner))) (x.id ^^^ 1)
            = none := by rw [upd_apply_ne _ _ _ k1]; exact hvx
        have hvy' : (upd c.pending x.id (some (x.engines, x.winner))) (y.id ^^^ 1)
            = none := by rw [upd_apply_ne _ _ _ k2]; exact hvy
        rw [step_store _ x hvx', step_store _ y hvy']
        simp only [Option.some.injEq, PentaCore.mk.injEq]
        exact ⟨trivial, upd_comm c.pending (Ne.symm hxy) _ _⟩
      | some pr =>
        have hvx' : (upd c.pending y.id (some (y.engines, y.winner))) (x.id ^^^ 1)
            = some pr := by rw [upd_apply_ne _ _ _ k1]; exact hvx
        by_cases hcx : x.engines.1 = pr.1.2 ∧ x.engines.2 = pr.1.1
        · rw [step_consume _ x pr hvx' hcx, step_consume c x pr hvx hcx]
          simp only [Option.some_bind]
          have hvy' : (upd c.pending (x.id ^^^ 1) none) (y.id ^^^ 1) = none := by
            rw [upd_apply_ne _ _ _ (Ne.symm k3)]; exact hvy
          rw [step_store _ y hvy']
          simp only [Option.some.injEq, PentaCore.mk.injEq]
          exact ⟨trivial, upd_comm c.pending (Ne.symm k1) _ _⟩
        · rw [step_assert_fail _ x pr hvx' hcx, step_assert_fail c x pr hvx hcx]
          rfl
    | some pr =>
      by_cases hcy : y.engines.1 = pr.1.2 ∧ y.engines.2 = pr.1.1
      · rw [step_consume c y pr hvy hcy]
        simp only [Option.some_bind]
        cases hvx : c.pending (x.id ^^^ 1) with
        | none =>
          rw [step_store c x hvx]
          simp only [Option.some_bind]
          have hvx' : (upd c.pending (y.id ^^^ 1) none) (x.id ^^^ 1) = none := by
            rw [upd_apply_ne _ _ _ k3]; exact hvx
          have hvy' : (upd c.pending x.id (some (x.engines, x.winner))) (y.id ^^^ 1)
              = some pr := by rw [upd_apply_ne _ _ _ k2]; exact hvy
          rw [step_store _ x hvx', step_consume _ y pr hvy' hcy]
          simp only [Option.some.injEq, PentaCore.mk.injEq]
          exact ⟨trivial, upd_comm c.pending k2 _ _⟩
        | some qr =>
          have hvx' : (upd c.pending (y.id ^^^ 1) none) (x.id ^^^ 1) = some qr := by
            rw [upd_apply_ne _ _ _ k3]; exact hvx
          by_cases hcx : x.engines.1 = qr.1.2 ∧ x.engines.2 = qr.1.1
          · rw [step_consume _ x qr hvx' hcx, step_consume c x qr hvx hcx]
            simp only [Option.some_bind]
            have hvy' : (upd c.pending (x.id ^^^ 1) none) (y.id ^^^ 1) = some pr := by
              rw [upd_apply_ne _ _ _ (Ne.symm k3)]; exact hvy
            rw [step_consume _ y pr hvy' hcy]
            simp only [Option.some.injEq, PentaCore.mk.injEq]
            refine ⟨?_, upd_comm c.pending k3.symm _ _⟩
            exact pentaInsert4_comm c.board _ _ _ _ _ _ _ _
          · rw [step_assert_fail _ x qr hvx' hcx, step_assert_fail c x qr hvx hcx]
            rfl
      · rw [step_assert_fail c y pr hvy hcy]
        simp only [Option.none_bind]
        cases hvx : c.pending (x.id ^^^ 1) with
        | none =>
          rw [step_store c x hvx]
          simp only [Option.some_bind]
          have hvy' : (upd c.pending x.id (some (x.engines, x.winner))) (y.id ^^^ 1)
              = some pr := by rw [upd_apply_ne _ _ _ k2]; exact hvy
          rw [step_assert_fail _ y pr hvy' hcy]
        | some qr =>
          by_cases hcx : x.engines.1 = qr.1.2 ∧ x.engines.2 = qr.1.1
          · rw [step_consume c x qr hvx hcx]
            simp only [Option.some_bind]
            have hvy' : (upd c.pending (x.id ^^^ 1) none) (y.id ^^^ 1) = some pr := by
              rw [upd_apply_ne _ _ _ (Ne.symm k3)]; exact hvy
            rw [step_assert_fail _ y pr hvy' hcy]
          · rw [step_assert_fail c x qr hvx hcx]
            rfl

theorem fold_cons (c : PentaCore) (r : ResultPost) (rs : List ResultPost) :
    PentaCore.fold c (r :: rs)
      = (c.step r).bind (fun c' => PentaCore.fold c' rs) := rfl

/-- A coherent head post never panics, and coherence survives posting it. -/
theorem coherent_cons_step {c : PentaCore} {x : ResultPost} {t : List ResultPost}
    (h : Coherent c (x :: t)) : ∃ c', c.step x = some c' ∧ Coherent c' t := by
  obtain ⟨hnd, hall⟩ := h
  rw [List.map_cons, List.nodup_cons] at hnd
  obtain ⟨hx_nin, hnd'⟩ := hnd
  have hid_ne : ∀ r ∈ t, r.id ≠ x.id := by
    intro r hr he
    exact hx_nin (he ▸ List.mem_map_of_mem ResultPost.id hr)
  obtain ⟨hpx, hdisj⟩ := hall x (List.mem_cons_self x t)
  rcases hdisj with ⟨r', hr'mem, hr'id, hr'eng⟩ | ⟨hnosib, hpend⟩
  · -- the sibling of `x` occurs later in the list: `x` is stored as pending
    have hr't : r' ∈ t := by
      rcases List.mem_cons.mp hr'mem with h1 | h1
      · exfalso
        apply sib_ne x.id
        rw [← hr'id, h1]
      · exact h1
    have hsibpend : c.pending (x.id ^^^ 1) = none := by
      have h2 := (hall r' (List.mem_cons_of_mem _ hr't)).1
      rw [hr'id] at h2
      simpa [sib] using h2
    refine ⟨_, step_store c x hsibpend, hnd', ?_⟩
    intro r hr
    dsimp only
    obtain ⟨hpr, hdr⟩ := hall r (List.mem_cons_of_mem _ hr)
    refine ⟨?_, ?_⟩
    · rw [upd_apply_ne _ _ _ (hid_ne r hr)]
      exact hpr
    · rcases hdr with ⟨r'', hr''mem, hr''id, hr''eng⟩ | ⟨hns, hp⟩
      · rcases List.mem_cons.mp hr''mem with h1 | h1
        · -- the sibling of `r` is `x` itself, just stored as pending
          right
          have hxid : x.id = sib r.id := h1 ▸ hr''id
          refine ⟨?_, ?_⟩
          · rintro ⟨r3, hr3, hid3⟩
            exact hid_ne r3 hr3 (by rw [hid3, ← hxid])
          · rw [← hxid, upd_apply_same]
            simp only [Option.map_some']
            rw [show x.engines = swapKey r.engines from h1 ▸ hr''eng]
        · exact Or.inl ⟨r'', h1, hr''id, hr''eng⟩
      · right
        refine ⟨?_, ?_⟩
        · rintro ⟨r3, hr3, hid3⟩
          exact hns ⟨r3, List.mem_cons_of_mem _ hr3, hid3⟩
        · have hne : sib r.id ≠ x.id := by
            intro he
            exact hns ⟨x, List.mem_cons_self x t, he.symm⟩
          rw [upd_apply_ne _ _ _ hne]
          exact hp
  · -- the sibling of `x` is already pending: `x` consumes it
    obtain ⟨pr, hpr, hfst⟩ :
        ∃ pr, c.pending (sib x.id) = some pr ∧ pr.1 = swapKey x.engines := by
      cases hq : c.pending (sib x.id) with
      | none => rw [hq] at hpend; simp at hpend
      | some v =>
        rw [hq] at hpend
        simp only [Option.map_some', Option.some.injEq] at hpend
        exact ⟨v, rfl, hpend⟩
    have hcond : x.engines.1 = pr.1.2 ∧ x.engines.2 = pr.1.1 := by
      rw [hfst]; exact ⟨rfl, rfl⟩
    have hpr' : c.pending (x.id ^^^ 1) = some pr := by simpa [sib] using hpr
    refine ⟨_, step_consume c x pr hpr' hcond, hnd', ?_⟩
    intro r hr
    dsimp only
    obtain ⟨hprr, hdr⟩ := hall r (List.mem_cons_of_mem _ hr)
    have hr_ne_sibx : r.id ≠ sib x.id := by
      intro he
      exact hnosib ⟨r, List.mem_cons_of_mem _ hr, he⟩
    refine ⟨?_, ?_⟩
    · rw [upd_apply_ne _ _ _ (by simpa [sib] using hr_ne_sibx)]
      exact hprr
    · rcases hdr with ⟨r'', hr''mem, hr''id, hr''eng⟩ | ⟨hns, hp⟩
      · left
        rcases List.mem_cons.mp hr''mem with h1 | h1
        · exfalso
          apply hr_ne_sibx
          rw [← sib_sib r.id, ← (h1 ▸ hr''id : x.id = sib r.id)]
        · exact ⟨r'', h1, hr''id, hr''eng⟩
      · right
        refine ⟨?_, ?_⟩
        · rintro ⟨r3, hr3, h3⟩
          exact hns ⟨r3, List.mem_cons_of_mem _ hr3, h3⟩
        · have hne : sib r.id ≠ x.id ^^^ 1 := by
            intro he
            have he' : r.id ^^^ 1 = x.id ^^^ 1 := by simpa [sib] using he
            exact hid_ne r hr (by
              have := congrArg (fun n => n ^^^ 1) he'
              simpa [Nat.xor_assoc] using this)
          rw [upd_apply_ne _ _ _ hne]
          exact hp

/-- Coherence only depends on the underlying multiset of posts. -/
theorem coherent_perm {rs rs' : List ResultPost} (h : rs.Perm rs') (c : PentaCore)
    (hc : Coherent c rs) : Coherent c rs' := by
  obtain ⟨hnd, hall⟩ := hc
  refine ⟨((h.map ResultPost.id).nodup_iff).mp hnd, ?_⟩
  intro r hr
  obtain ⟨h1, h2⟩ := hall r (h.mem_iff.mpr hr)
  refine ⟨h1, ?_⟩
  rcases h2 with ⟨r', hr'm, hid, heng⟩ | ⟨hns, hp⟩
  · exact Or.inl ⟨r', h.mem_iff.mp hr'm, hid, heng⟩
  · exact Or.inr ⟨fun ⟨r3, h3, hid3⟩ => hns ⟨r3, h.mem_iff.mpr h3, hid3⟩, hp⟩

/-- Folding the pentanomial core over any permutation of a coherent list of
posts yields the same result. -/
theorem core_fold_perm {rs rs' : List ResultPost} (h : rs.Perm rs') :
    ∀ c : PentaCore, Coherent c rs → PentaCore.fold c rs = PentaCore.fold c rs' := by
  induction h with
  | nil =>
    intro c _
    rfl
  | cons z h' ih =>
    intro c hc
    obtain ⟨c', hstep, hc'⟩ := coherent_cons_step hc
    rw [fold_cons, fold_cons, hstep]
    simp only [Option.some_bind]
    exact ih c' hc'
  | swap x y l =>
    intro c hc
    obtain ⟨hnd, hall⟩ := hc
    have hxy : x.id ≠ y.id := by
      rw [List.map_cons, List.nodup_cons, List.map_cons, List.nodup_cons] at hnd
      intro he
      exact hnd.1 (by rw [← he]; exact List.mem_cons_self _ _)
    have hpy : c.pending y.id = none := (hall y (List.mem_cons_self _ _)).1
    have hpx : c.pending x.id =
        none := (hall x (List.mem_cons_of_mem _ (List.mem_cons_self _ _))).1
    have e1 : PentaCore.fold c (y :: x :: l)
        = ((c.step y).bind (fun c1 => c1.step x)).bind
            (fun c2 => PentaCore.fold c2 l) := by
      rw [fold_cons]
      cases c.step y <;> simp [fold_cons]
    have e2 : PentaCore.fold c (x :: y :: l)
        = ((c.step x).bind (fun c1 => c1.step y)).bind
            (fun c2 => PentaCore.fold c2 l) := by
      rw [fold_cons]
      cases c.step x <;> simp [fold_cons]
    rw [e1, e2, step_comm c x y hxy hpx hpy]
  | trans h1 h2 ih1 ih2 =>
    intro c hc
    rw [ih1 c hc, ih2 c (coherent_perm h1 c hc)]

theorem add_penta_half_wdl_pta {s : StatsState} {match_id a b : Nat}
    {res : Option Color} {t : StatsState}
    (h : s.add_penta_half match_id a b res = some t) :
    t.wdl_board = s.wdl_board := by
  unfold StatsState.add_penta_half at h
  dsimp only at h
  cases hv : s.pending (match_id ^^^ 1) with
  | none =>
    rw [hv] at h
    dsimp only at h
    simp only [Option.some.injEq] at h
    rw [← h]
  | some pr =>
    rw [hv] at h
    dsimp only at h
    by_cases hc : a = pr.1.2 ∧ b = pr.1.1
    · rw [if_pos hc] at h
      simp only [Option.some.injEq] at h
      rw [← h]
    · rw [if_neg hc] at h
      exact Option.noConfusion h

theorem core_match_complete (oracle : Option (Penta → Bool)) (s : StatsState)
    (r : ResultPost) :
    (StatsState.match_complete oracle s r).map StatsState.core
      = PentaCore.step s.core r := by
  have hcu : ∀ t : StatsState,
      (StatsState.match_complete_count_update oracle t).penta_board = t.penta_board ∧
        (StatsState.match_complete_count_update oracle t).pending = t.pending := by
    intro t
    unfold StatsState.match_complete_count_update
    cases oracle with
    | none => exact ⟨rfl, rfl⟩
    | some g =>
      dsimp only
      split <;> exact ⟨rfl, rfl⟩
  unfold StatsState.match_complete StatsState.add_result StatsState.add_penta_half
    PentaCore.step StatsState.add_wdl StatsState.core
  dsimp only
  cases hv : s.pending (r.id ^^^ 1) with
  | none =>
    dsimp only
    simp only [Option.map_some', hcu]
  | some pr =>
    dsimp only
    by_cases hc : r.engines.1 = pr.1.2 ∧ r.engines.2 = pr.1.1
    · simp only [if_pos hc, Option.map_some', hcu]
    · simp only [if_neg hc, Option.map_none']

theorem foldComplete_cons (oracle : Option (Penta → Bool)) (s : StatsState)
    (r : ResultPost) (rs : List ResultPost) :
    StatsState.foldComplete oracle s (r :: rs)
      = (StatsState.match_complete oracle s r).bind
          (fun s1 => StatsState.foldComplete oracle s1 rs) := rfl

theorem core_foldComplete (oracle : Option (Penta → Bool)) (rs : List ResultPost) :
    ∀ s : StatsState,
      (StatsState.foldComplete oracle s rs).map StatsState.core
        = PentaCore.fold s.core rs := by
  induction rs with
  | nil =>
    intro s
    rfl
  | cons r rs ih =>
    intro s
    rw [foldComplete_cons, fold_cons]
    cases hm : StatsState.match_complete oracle s r with
    | none =>
      have h1 := core_match_complete oracle s r
      rw [hm] at h1
      simp only [Option.map_none'] at h1
      rw [← h1]
      rfl
    | some s1 =>
      have h1 := core_match_complete oracle s r
      rw [hm] at h1
      simp only [Option.map_some'] at h1
      rw [← h1]
      simp only [Option.some_bind]
      exact ih s1

/-- C2: Feeding the completed results of sibling pairs to
`StatsWrapper::match_complete` yields a final `penta_board` that does not
depend on the arrival order of the individual results: any permutation of a
coherent list of posts (in particular, swapping the two halves of a sibling
pair) gives the same board. -/
theorem statsWrapper_penta_order_independent (oracle : Option (Penta → Bool))
    (s : StatsState) (rs rs' : List ResultPost)
    (hperm : rs.Perm rs') (hco : Coherent s.core rs) :
    (StatsState.foldComplete oracle s rs).map StatsState.penta_board
      = (StatsState.foldComplete oracle s rs').map StatsState.penta_board := by
  have h1 : ∀ ts : List ResultPost,
      (StatsState.foldComplete oracle s ts).map StatsState.penta_board
        = ((StatsState.foldComplete oracle s ts).map StatsState.core).map
            PentaCore.board := by
    intro ts
    rw [Option.map_map]
    rfl
  rw [h1, h1, core_foldComplete, core_foldComplete,
    core_fold_perm hperm s.core hco]

/-- Closed witness for `statsWrapper_penta_order_independent`: the two
halves of the sibling pair `(0, 1)` (engine pair `(0, 1)` and its swap)
posted in either order produce the same pentanomial board. -/
theorem statsWrapper_penta_order_independent_witness :
    (StatsState.foldComplete none (StatsState.new 2)
        [⟨0, (0, 1), some Color.Sente⟩, ⟨1, (1, 0), some Color.Gote⟩]).map
        StatsState.penta_board
      = (StatsState.foldComplete none (StatsState.new 2)
          [⟨1, (1, 0), some Color.Gote⟩, ⟨0, (0, 1), some Color.Sente⟩]).map
          StatsState.penta_board :=
  statsWrapper_penta_order_independent none (StatsState.new 2) _ _
    (List.Perm.swap (⟨1, (1, 0), some Color.Gote⟩ : ResultPost)
      (⟨0, (0, 1), some Color.Sente⟩ : ResultPost) [])
    (by unfold Coherent; exact ⟨by decide, by decide⟩)

theorem wdlOf_not (res : Option Color) :
    (wdlOf (res.map Color.not)).w = (wdlOf res).l ∧
      (wdlOf (res.map Color.not)).l = (wdlOf res).w ∧
      (wdlOf (res.map Color.not)).d = (wdlOf res).d := by
  cases res with
  | none => exact ⟨rfl, rfl, rfl⟩
  | some c => cases c <;> exact ⟨rfl, rfl, rfl⟩

theorem wdl_mirror_double_add (W : Nat × Nat → Wdl) (a b : Nat) (res : Option Color)
    (hs : WdlMirror W) :
    WdlMirror (upd (upd W (a, b) ((W (a, b)).add (wdlOf res))) (b, a)
      ((upd W (a, b) ((W (a, b)).add (wdlOf res)) (b, a)).add
        (wdlOf (res.map Color.not)))) := by
  intro x y
  obtain ⟨e1, e2, e3⟩ := wdlOf_not res
  by_cases hab : a = b
  · subst hab
    by_cases hx : (x, y) = (a, a)
    · have hyx : (y, x) = ((a : Nat), a) := by
        rw [Prod.mk.injEq] at hx ⊢
        exact ⟨hx.2, hx.1⟩
      rw [hx, hyx]
      simp only [upd_apply_same]
      obtain ⟨m1, m2, m3⟩ := hs a a
      simp only [Wdl.add]
      refine ⟨?_, ?_, ?_⟩ <;> dsimp only <;> omega
    · have hyx : (y, x) ≠ ((a : Nat), a) := by
        intro hk
        rw [Prod.mk.injEq] at hk
        apply hx
        rw [Prod.mk.injEq]
        exact ⟨hk.2, hk.1⟩
      simp only [upd_apply_ne _ _ _ hx, upd_apply_ne _ _ _ hyx]
      exact hs x y
  · have hne : ((a : Nat), b) ≠ ((b : Nat), a) := by
      intro hk
      rw [Prod.mk.injEq] at hk
      exact hab hk.1
    by_cases hx1 : (x, y) = ((a : Nat), b)
    · rw [Prod.mk.injEq] at hx1
      obtain ⟨h1, h2⟩ := hx1
      subst h1
      subst h2
      simp only [upd_apply_same, upd_apply_ne _ _ _ hne,
        upd_apply_ne _ _ _ (Ne.symm hne)]
      obtain ⟨m1, m2, m3⟩ := hs x y
      simp only [Wdl.add]
      refine ⟨?_, ?_, ?_⟩ <;> dsimp only <;> omega
    · by_cases hx2 : (x, y) = ((b : Nat), a)
      · rw [Prod.mk.injEq] at hx2
        obtain ⟨h1, h2⟩ := hx2
        subst h1
        subst h2
        simp only [upd_apply_same, upd_apply_ne _ _ _ hne,
          upd_apply_ne _ _ _ (Ne.symm hne)]
        obtain ⟨m1, m2, m3⟩ := hs y x
        simp only [Wdl.add]
        refine ⟨?_, ?_, ?_⟩ <;> dsimp only <;> omega
      · have hy1 : (y, x) ≠ ((b : Nat), a) := by
          intro hk
          rw [Prod.mk.injEq] at hk
          apply hx1
          rw [Prod.mk.injEq]
          exact ⟨hk.2, hk.1⟩
        have hy2 : (y, x) ≠ ((a : Nat), b) := by
          intro hk
          rw [Prod.mk.injEq] at hk
          apply hx2
          rw [Prod.mk.injEq]
          exact ⟨hk.2, hk.1⟩
        simp only [upd_apply_ne _ _ _ hx1, upd_apply_ne _ _ _ hx2,
          upd_apply_ne _ _ _ hy1, upd_apply_ne _ _ _ hy2]
        exact hs x y

theorem count_update_wdl_flag (oracle : Option (Penta → Bool)) (t : StatsState) :
    (StatsState.match_complete_count_update oracle t).wdl_board = t.wdl_board := by
  unfold StatsState.match_complete_count_update
  cases oracle with
  | none => rfl
  | some g =>
    dsimp only
    split <;> rfl

theorem wdl_mirror_match_complete (oracle : Option (Penta → Bool))
    {s s' : StatsState} {r : ResultPost}
    (h : StatsState.match_complete oracle s r = some s')
    (hm : WdlMirror s.wdl_board) : WdlMirror s'.wdl_board := by
  unfold StatsState.match_complete StatsState.add_result at h
  cases ha : ((s.add_wdl (r.engines.1, r.engines.2) r.winner).add_wdl
      (r.engines.2, r.engines.1) (r.winner.map Color.not)).add_penta_half
      r.id r.engines.1 r.engines.2 r.winner with
  | none =>
    rw [ha] at h
    exact Option.noConfusion h
  | some t =>
    rw [ha] at h
    simp only [Option.map_some', Option.some.injEq] at h
    have hw : s'.wdl_board = t.wdl_board := by
      rw [← h, count_update_wdl_flag]
    have ht := add_penta_half_wdl_pta ha
    rw [hw, ht]
    exact wdl_mirror_double_add s.wdl_board r.engines.1 r.engines.2 r.winner hm

theorem wdl_mirror_fold (oracle : Option (Penta → Bool)) (rs : List ResultPost) :
    ∀ s : StatsState, WdlMirror s.wdl_board →
      (StatsState.foldComplete oracle s rs).elim True
        (fun s' => WdlMirror s'.wdl_board) := by
  induction rs with
  | nil =>
    intro s hm
    exact hm
  | cons r rs ih =>
    intro s hm
    rw [foldComplete_cons]
    cases hmc : StatsState.match_complete oracle s r with
    | none => exact trivial
    | some s1 =>
      simp only [Option.some_bind]
      exact ih s1 (wdl_mirror_match_complete oracle hmc hm)

/-- C5: After any sequence of `StatsWrapper::match_complete` calls from the
initial state (when no call panics), the WDL board satisfies the mirror
law: `wdl[(a,b)].w = wdl[(b,a)].l`, `wdl[(a,b)].l = wdl[(b,a)].w`, and
`wdl[(a,b)].d = wdl[(b,a)].d`, absent entries reading as zero. -/
theorem statsWrapper_wdl_symmetry (oracle : Option (Penta → Bool)) (n : Nat)
    (rs : List ResultPost) (a b : Nat) :
    (StatsState.foldComplete oracle (StatsState.new n) rs).elim True (fun s' =>
      (s'.wdl_board (a, b)).w = (s'.wdl_board (b, a)).l ∧
      (s'.wdl_board (a, b)).l = (s'.wdl_board (b, a)).w ∧
      (s'.wdl_board (a, b)).d = (s'.wdl_board (b, a)).d) := by
  have h0 : WdlMirror (StatsState.new n).wdl_board := fun _ _ => ⟨rfl, rfl, rfl⟩
  have h := wdl_mirror_fold oracle rs (StatsState.new n) h0
  cases hf : StatsState.foldComplete oracle (StatsState.new n) rs with
  | none => exact trivial
  | some s' =>
    rw [hf] at h
    exact h a b

theorem add_penta_half_keeps_flag {s : StatsState} {match_id a b : Nat}
    {res : Option Color} {t : StatsState}
    (h : s.add_penta_half match_id a b res = some t) :
    t.should_terminate = s.should_terminate := by
  unfold StatsState.add_penta_half at h
  dsimp only at h
  cases hv : s.pending (match_id ^^^ 1) with
  | none =>
    rw [hv] at h
    dsimp only at h
    simp only [Option.some.injEq] at h
    rw [← h]
  | some pr =>
    rw [hv] at h
    dsimp only at h
    by_cases hc : a = pr.1.2 ∧ b = pr.1.1
    · rw [if_pos hc] at h
      simp only [Option.some.injEq] at h
      rw [← h]
    · rw [if_neg hc] at h
      exact Option.noConfusion h

theorem match_complete_flag_latch (oracle : Option (Penta → Bool))
    {s s' : StatsState} {r : ResultPost}
    (h : StatsState.match_complete oracle s r = some s')
    (hf : s.should_terminate = true) : s'.should_terminate = true := by
  unfold StatsState.match_complete StatsState.add_result at h
  cases ha : ((s.add_wdl (r.engines.1, r.engines.2) r.winner).add_wdl
      (r.engines.2, r.engines.1) (r.winner.map Color.not)).add_penta_half
      r.id r.engines.1 r.engines.2 r.winner with
  | none =>
    rw [ha] at h
    exact Option.noConfusion h
  | some t =>
    rw [ha] at h
    simp only [Option.map_some', Option.some.injEq] at h
    have hft : t.should_terminate = true := (add_penta_half_keeps_flag ha).trans hf
    rw [← h]
    unfold StatsState.match_complete_count_update
    cases oracle with
    | none => exact hft
    | some g =>
      dsimp only
      rw [if_pos (show ({ t with match_complete_count := t.match_complete_count + 1 } :
        StatsState).should_terminate = true from hft)]
      exact hft

/-- C6: Once the `should_terminate` flag of `StatsWrapper` is set, no later
`match_complete` call resets it, and `next` answers `None` without
consulting the inner tournament. -/
theorem statsWrapper_terminate_latch (oracle : Option (Penta → Bool))
    (s : StatsState) (rs : List ResultPost) (inn : Option Unit)
    (h : s.should_terminate = true) :
    (StatsState.foldComplete oracle s rs).elim True (fun s' =>
      s'.should_terminate = true ∧ (StatsState.next s' inn).1 = none) := by
  have main : ∀ t : StatsState, t.should_terminate = true →
      (StatsState.foldComplete oracle t rs).elim True (fun s' =>
        s'.should_terminate = true ∧ (StatsState.next s' inn).1 = none) := by
    induction rs with
    | nil =>
      intro t ht
      refine ⟨ht, ?_⟩
      unfold StatsState.next
      rw [if_pos ht]
    | cons r rs ih =>
      intro t ht
      rw [foldComplete_cons]
      cases hmc : StatsState.match_complete oracle t r with
      | none => exact trivial
      | some s1 =>
        simp only [Option.some_bind]
        exact ih s1 (match_complete_flag_latch oracle hmc ht)
  exact main s h

/-- Closed witness for `statsWrapper_terminate_latch`: a state with the flag
already set, one further posted result. -/
theorem statsWrapper_terminate_latch_witness :
    (StatsState.foldComplete none
        { StatsState.new 2 with should_terminate := true }
        [⟨0, (0, 1), some Color.Sente⟩]).elim True (fun s' =>
      s'.should_terminate = true ∧ (StatsState.next s' (some ())).1 = none) :=
  statsWrapper_terminate_latch none
    { StatsState.new 2 with should_terminate := true }
    [⟨0, (0, 1), some Color.Sente⟩] (some ()) rfl

/-- C9: For every Penta value `p`, `p.flip().flip() = p`, where flip swaps
`ll`/`ww` and `dl`/`wd` and fixes `dd`, `wl`. -/
theorem penta_flip_flip (p : Penta) :
    p.flip.flip = p ∧
      (p.flip.ll = p.ww ∧ p.flip.ww = p.ll ∧ p.flip.dl = p.wd ∧
        p.flip.wd = p.dl ∧ p.flip.dd = p.dd ∧ p.flip.wl = p.wl) := by
  cases p
  simp [Penta.flip]

/-- C3: `EngineTime::step`. If the elapsed duration is at most the remaining
time, the step returns `Ok` and the new remaining time is the old remaining
time minus the elapsed duration plus the increment; otherwise it returns
`TimeElapsed` and the remaining time becomes zero. -/
theorem engineTime_step_spec (et : EngineTime) (d : Nat) :
    (d ≤ et.remaining →
      et.step d = (.Ok, { et with remaining := et.remaining - d + et.tc.increment })) ∧
    (et.remaining < d →
      et.step d = (.TimeElapsed, { et with remaining := 0 })) := by
  constructor
  · intro h
    simp [EngineTime.step, Nat.not_lt.mpr h]
  · intro h
    simp [EngineTime.step, h]

/-- Closed witness for `engineTime_step_spec`: a clock at 10ns with 2ns
increment stepped by 3ns, and the same clock stepped by 11ns. -/
theorem engineTime_step_spec_witness :
    (EngineTime.step ⟨⟨8, 2⟩, 10⟩ 3 = (.Ok, ⟨⟨8, 2⟩, 9⟩)) ∧
      (EngineTime.step ⟨⟨8, 2⟩, 10⟩ 11 = (.TimeElapsed, ⟨⟨8, 2⟩, 0⟩)) :=
  ⟨(engineTime_step_spec ⟨⟨8, 2⟩, 10⟩ 3).1 (by decide),
   (engineTime_step_spec ⟨⟨8, 2⟩, 10⟩ 11).2 (by decide)⟩

/-- C1: `SprtParameters::should_terminate` holds iff the pair count is
positive and the log-likelihood ratio is at most
`ln (beta / (1 - alpha))` or at least `ln ((1 - beta) / alpha)`; in
particular it is false whenever the pair count is zero. -/
theorem sprt_should_terminate_iff (nelo0 nelo1 alpha beta : ℝ)
    (llr : Penta → ℝ) (p : Penta) :
    ((SprtParameters.new nelo0 nelo1 alpha beta).should_terminate llr p ↔
      0 < p.pair_count ∧
        (llr p ≤ Real.log (beta / (1 - alpha)) ∨
          llr p ≥ Real.log ((1 - beta) / alpha))) ∧
    (p.pair_count = 0 →
      ¬ (SprtParameters.new nelo0 nelo1 alpha beta).should_terminate llr p) := by
  constructor
  · by_cases h : p.pair_count = 0
    · simp [SprtParameters.should_terminate, h]
    · simp [SprtParameters.should_terminate, SprtParameters.new,
        SprtParameters.llr_bounds, h, Nat.pos_of_ne_zero h]
  · intro h
    simp [SprtParameters.should_terminate, h]

/-- Closed witness for `sprt_should_terminate_iff`: with an empty tally the
pair count is zero and the gate is off. -/
theorem sprt_should_terminate_iff_witness :
    ¬ (SprtParameters.new 0 10 (5/100) (5/100)).should_terminate
        (fun _ => 0) Penta.zero :=
  (sprt_should_terminate_iff 0 10 (5/100) (5/100) (fun _ => 0) Penta.zero).2 (by decide)


/-- C4 (code evaluated at the failing input): `Engine::read_with_timeout`
never produces `ReadResult::Disconnected` on any interaction trace — the
variant is declared but no code path constructs it — and on the EOF
input (the descriptor polls readable each iteration, `fill_buf` returns
zero bytes) the loop never returns at all instead of reporting
`Disconnected`. -/
theorem read_with_timeout_never_disconnects (f : List Char → ReadState)
    (buf : List Char) (evts : List PollEvt) (k : Nat) :
    runRead f buf evts ≠ ReadOutcome.ret ReadResult.Disconnected ∧
    runRead f [] (List.replicate k (PollEvt.chunk [])) = ReadOutcome.blocked := by
  constructor
  · induction evts generalizing buf with
    | nil => simp [runRead]
    | cons e evs ih =>
      cases e with
      | timeout => simp [runRead]
      | ioerr => simp [runRead]
      | chunk d =>
        rcases hp : processLines f (buf ++ d) with ⟨b, rest⟩
        cases b with
        | true => simp [runRead, hp]
        | false =>
          have he : runRead f buf (PollEvt.chunk d :: evs) = runRead f rest evs := by
            simp [runRead, hp]
          rw [he]
          exact ih rest
  · induction k with
    | zero => simp [runRead]
    | succ k ih =>
      rw [List.replicate_succ]
      have hp : processLines f [] = (false, ([] : List Char)) := by
        unfold processLines
        simp
      have he : runRead f [] (PollEvt.chunk [] :: List.replicate k (PollEvt.chunk []))
          = runRead f [] (List.replicate k (PollEvt.chunk [])) := by
        simp [runRead, hp]
      rw [he]
      exact ih

/-- C8 counterexample: one engine configured (fewer than two, a
configuration error) with a book supplied and everything else healthy —
the process exits 0, where the claim requires a non-zero exit. -/
theorem mainExitCode_config_error_exits_zero :
    mainExitCode true 1 true true false true = 0 ∧ 1 < 2 :=
  ⟨rfl, by decide⟩

/-- C8 amended: the process exits 0 both on successful termination and on
the detected configuration errors (CLI parse failure, fewer than two
engines, missing opening-book option), which are only reported on
stderr; a non-zero exit arises only from an opening-book load failure
(panic) or a PGN-output I/O error. -/
theorem mainExitCode_spec (ne : Nat) (bs bl pr po : Bool) :
    (mainExitCode false ne bs bl pr po = 0) ∧
    (ne < 2 → mainExitCode true ne bs bl pr po = 0) ∧
    (mainExitCode true ne false bl pr po = 0) ∧
    (2 ≤ ne → bs = true → bl = false → mainExitCode true ne bs bl pr po ≠ 0) ∧
    (2 ≤ ne → bs = true → bl = true → pr = true → po = false →
      mainExitCode true ne bs bl pr po ≠ 0) ∧
    (2 ≤ ne → bs = true → bl = true → (pr = true → po = true) →
      mainExitCode true ne bs bl pr po = 0) := by
  refine ⟨?_, ?_, ?_, ?_, ?_, ?_⟩
  · rfl
  · intro h
    simp [mainExitCode, h]
  · cases ne with
    | zero => rfl
    | succ m =>
      cases m with
      | zero => rfl
      | succ m' => simp [mainExitCode]
  · intro h1 h2 h3
    subst h2
    subst h3
    simp [mainExitCode, Nat.not_lt.mpr h1]
  · intro h1 h2 h3 h4 h5
    subst h2
    subst h3
    subst h4
    subst h5
    simp [mainExitCode, Nat.not_lt.mpr h1]
  · intro h1 h2 h3 h4
    subst h2
    subst h3
    cases pr with
    | false => simp [mainExitCode, Nat.not_lt.mpr h1]
    | true => simp [mainExitCode, Nat.not_lt.mpr h1, h4 rfl]

/-- Closed witness for `mainExitCode_spec`: two engines, book supplied and
loading, no PGN output — exit 0; book supplied but failing to load —
exit 101. -/
theorem mainExitCode_spec_witness :
    mainExitCode true 2 true true false true = 0 ∧
      mainExitCode true 2 true false false true ≠ 0 :=
  ⟨(mainExitCode_spec 2 true true false true).2.2.2.2.2 (by decide) rfl rfl
      (fun h => absurd h (by decide)),
    (mainExitCode_spec 2 true false false true).2.2.2.1 (by decide) rfl rfl⟩

/-- C10: when the aggregated pentanomial for engine 1 has `wl = 0`, the
DD/WL ratio printed by the head-to-head report is non-finite: positive
infinity when `dd > 0` and NaN when `dd = 0`; the division in
`Penta::dd_wl_ratio` is unguarded. -/
theorem reported_dd_wl_nonfinite (s : StatsState)
    (h : (s.all_penta_for 1).wl = 0) :
    (StatsState.reported_dd_wl s).isFinite = false ∧
    (0 < (s.all_penta_for 1).dd → StatsState.reported_dd_wl s = F64.posInf) ∧
    ((s.all_penta_for 1).dd = 0 → StatsState.reported_dd_wl s = F64.nan) := by
  by_cases hdd : 0 < (s.all_penta_for 1).dd
  · have hdd' : ¬((s.all_penta_for 1).dd = 0) := by omega
    simp [StatsState.reported_dd_wl, Penta.dd_wl_quot, F64.div, h, hdd, hdd',
      Nat.cast_pos, F64.isFinite]
  · have hdd0 : (s.all_penta_for 1).dd = 0 := by omega
    simp [StatsState.reported_dd_wl, Penta.dd_wl_quot, F64.div, h, hdd0,
      F64.isFinite]

/-- Closed witness for `reported_dd_wl_nonfinite`: the empty initial state
has `wl = 0` and `dd = 0`, so the reported ratio is NaN. -/
theorem reported_dd_wl_nonfinite_witness :
    (StatsState.reported_dd_wl (StatsState.new 2)).isFinite = false ∧
    (0 < ((StatsState.new 2).all_penta_for 1).dd →
      StatsState.reported_dd_wl (StatsState.new 2) = F64.posInf) ∧
    (((StatsState.new 2).all_penta_for 1).dd = 0 →
      StatsState.reported_dd_wl (StatsState.new 2) = F64.nan) :=
  reported_dd_wl_nonfinite (StatsState.new 2) (by decide)

end Shogitest
